import Mathlib

/-!
Shallow embedding of the Slashdiablo launcher's patch/exec service
(`d2/service.go` and the per-platform shim) and proofs about it.

Filesystem state is modelled as a map from a localized path to the
observable state of the file at that path: absent, present with a given
content checksum (the result `hashCRC32` would compute), or in an I/O
error state (both `os.Stat` and reads fail with a non-NotFound error).
Remote fetches, downloads, renames and removals are driven by explicit
oracles so that every failure path of the Go code is reachable.
-/

set_option autoImplicit false

namespace SlashLauncher

/-- Observable state of one local file on disk. -/
inductive LocalFile where
  | absent
  | present (crc : String)
  | ioError
deriving DecidableEq, Repr

/-- The local filesystem: localized path ↦ file state. -/
def FS := String → LocalFile

/-- `localizePath` from the platform shim: the identity on this platform. -/
def localizePath (p : String) : String := p

/-- `fmt.Sprintf("%s/%s", dir, name)` as used throughout the service. -/
def joinPath (dir name : String) : String := dir ++ "/" ++ name

/-- `PatchFile` from `service.go` (the `last_modified` field is never read
by the service logic and is omitted). -/
structure PatchFile where
  Name : String
  CRC : String
  ContentLength : Int
deriving DecidableEq, Repr

/-- `Manifest` from `service.go`. -/
structure Manifest where
  Files : List PatchFile
deriving DecidableEq, Repr

/-- The error values the embedded service can produce. `cleanupCompose`
models `fmt.Errorf("Clean up error: %s : %s", patchErr, err)`: a single
error value carrying both component errors. -/
inductive Err where
  | crcRead (path : String)
  | statFail (path : String)
  | removeFail (path : String)
  | downloadFail (file : String)
  | renameFail (path : String)
  | readDirFail (dir : String)
  | configRead
  | manifestFetch (path : String)
  | launchFail
  | versionCheck (dir : String)
  | cleanupCompose (patchErr cleanErr : Err)
deriving DecidableEq, Repr

/-- `hashCRC32(path, polynomial)`: `ErrCRCFileNotFound` when the file is
absent, the checksum when it is readable, a fatal error otherwise.
`Option.none` plays the role of `ErrCRCFileNotFound`; the fatal case is
reported through `Except.error` by the caller. -/
def hashCRC32 (fs : FS) (path : String) : Except (Option String) String :=
  match fs path with
  | .absent => .error none
  | .present c => .ok c
  | .ioError => .error (some path)

/-- `getFilesToPatch(files, d2path, filesToIgnore)` from `service.go`:
walks the manifest in order; skips names in `filesToIgnore`; includes a
file when its local checksum lookup signals NotFound or the checksum
differs from the manifest CRC, accumulating the declared content length;
propagates any other checksum-lookup error. -/
def getFilesToPatch (fs : FS) : List PatchFile → String → List String →
    Except Err (List String × Int)
  | [], _, _ => .ok ([], 0)
  | f :: rest, d2path, filesToIgnore =>
    if f.Name ∈ filesToIgnore then
      getFilesToPatch fs rest d2path filesToIgnore
    else
      let path := localizePath (joinPath d2path f.Name)
      match hashCRC32 fs path with
      | .error none =>
        match getFilesToPatch fs rest d2path filesToIgnore with
        | .error e => .error e
        | .ok (l, t) => .ok (f.Name :: l, f.ContentLength + t)
      | .error (some p) => .error (.crcRead p)
      | .ok hashed =>
        if hashed ≠ f.CRC then
          match getFilesToPatch fs rest d2path filesToIgnore with
          | .error e => .error e
          | .ok (l, t) => .ok (f.Name :: l, f.ContentLength + t)
        else
          getFilesToPatch fs rest d2path filesToIgnore

/-- Spec-side characterization of when the diff planner must include a
manifest file: the local lookup signals NotFound, or the local checksum
differs from the manifest value. -/
def needsPatch (fs : FS) (d2path : String) (f : PatchFile) : Bool :=
  match fs (localizePath (joinPath d2path f.Name)) with
  | .absent => true
  | .present c => decide (c ≠ f.CRC)
  | .ioError => true

/-- The spec-side diff-plan filter over a manifest: non-ignored files that
need patching, in manifest order. -/
def planFilter (fs : FS) (d2path : String) (ignore : List String)
    (files : List PatchFile) : List PatchFile :=
  files.filter (fun f => decide (f.Name ∉ ignore) && needsPatch fs d2path f)

/-- A concrete filesystem for witnesses: `D/a` matches its manifest CRC,
`D/b` is present with a stale checksum, everything else is absent. -/
def fsW : FS := fun p =>
  if p = "D/a" then .present "AA" else if p = "D/b" then .present "XX" else .absent

/-- A concrete manifest for witnesses. -/
def filesW : List PatchFile := [⟨"a", "AA", 10⟩, ⟨"b", "BB", 20⟩, ⟨"c", "CC", 5⟩]

/-- One observable action of the service, recorded in traces. -/
inductive Ev where
  | fetch (path : String)
  | download (file : String) (ok : Bool)
  | rename (src dst : String)
  | readRunning
  | writeRunning
  | lock
  | unlock
  | launchStart (gameID : String)
  | logged (msg : String)
deriving DecidableEq, Repr

/-- `tmpFile[:len(tmpFile)-4]` from `doPatch`: strips the 4-byte `".tmp"`
staging suffix. Go slices bytes; character slicing coincides with it here
because the stripped suffix is ASCII. -/
def dropTmp (s : String) : String := ⟨s.data.take (s.data.length - 4)⟩

/-- Download phase of `doPatch`: each planned file is downloaded to its
staging path `path/name.tmp`; the staged paths are collected in download
order; a failed download aborts immediately. -/
def downloadAll (dl : String → Bool) (path : String) :
    List String → Except Err (List String) × List Ev
  | [] => (.ok [], [])
  | fileName :: rest =>
    let tmpPath := localizePath (joinPath path fileName ++ ".tmp")
    if dl fileName then
      match downloadAll dl path rest with
      | (.error e, evs) => (.error e, .download fileName true :: evs)
      | (.ok tmps, evs) => (.ok (tmpPath :: tmps), .download fileName true :: evs)
    else
      (.error (.downloadFail fileName), [.download fileName false])

/-- Promotion phase of `doPatch`: renames every staged file to its final
name (the staging suffix stripped), in download order; a failed rename
aborts immediately. -/
def renameAll (rn : String → Bool) : List String → Except Err Unit × List Ev
  | [] => (.ok (), [])
  | tmpFile :: rest =>
    if rn tmpFile then
      match renameAll rn rest with
      | (r, evs) => (r, .rename tmpFile (dropTmp tmpFile) :: evs)
    else
      (.error (.renameFail tmpFile), [])

/-- `doPatch(patchFiles, patchLength, remoteDir, path, progress)` from
`service.go`: downloads every planned file to a staged name, then — only
after every download succeeded — renames every staged file to its final
name, in the same order. `patchLength` and `remoteDir` only feed the
progress counter and the remote URL and do not affect control flow. -/
def doPatch (dl rn : String → Bool) (patchFiles : List String)
    (patchLength : Int) (remoteDir path : String) :
    Except Err Unit × List Ev :=
  match downloadAll dl path patchFiles with
  | (.error e, evs) => (.error e, evs)
  | (.ok tmpFiles, evs) =>
    match renameAll rn tmpFiles with
    | (r, evs2) => (r, evs ++ evs2)

/-- `strings.Contains(fileName, ".tmp")` from `cleanUpFailedPatch`: the
name contains ".tmp" anywhere, not only as a suffix. -/
def containsTmp (fileName : String) : Bool :=
  decide ((".tmp" : String).data <:+: fileName.data)

/-- The spec's staging-suffix test: the name ends with ".tmp". -/
def hasStagingSuffix (fileName : String) : Bool :=
  (".tmp" : String).data.isSuffixOf fileName.data

/-- The removal loop of `cleanUpFailedPatch`: removes every directory
entry whose name contains ".tmp"; a failed `os.Remove` aborts. Returns
the removed paths in scan order. -/
def removeTmpLoop (rmOk : String → Bool) (dir : String) :
    List String → Except Err Unit × List String
  | [] => (.ok (), [])
  | fileName :: rest =>
    if containsTmp fileName then
      let p := localizePath (joinPath dir fileName)
      if rmOk p then
        match removeTmpLoop rmOk dir rest with
        | (r, removed) => (r, p :: removed)
      else (.error (.removeFail p), [])
    else removeTmpLoop rmOk dir rest

/-- `cleanUpFailedPatch(dir)` from `service.go`: lists the install
directory's top level and removes every entry whose name contains
".tmp". -/
def cleanUpFailedPatch (rmOk : String → Bool)
    (listDir : String → Except Err (List String)) (dir : String) :
    Except Err Unit × List String :=
  match listDir (localizePath dir) with
  | .error e => (.error e, [])
  | .ok files => removeTmpLoop rmOk dir files

/-- The collaborators `apply113c` depends on. -/
structure PatchEnv where
  fetchManifest : String → Except Err Manifest
  fs : FS
  dl : String → Bool
  rn : String → Bool
  rmOk : String → Bool
  listDir : String → Except Err (List String)

/-- `apply113c(path, state, progress)` from `service.go`: fetches the
1.13c manifest, plans the diff, runs `doPatch` when the plan is
non-empty; on a patch failure it runs `cleanUpFailedPatch`, composing a
cleanup failure with the original patch error and otherwise returning the
original patch error unchanged. Status/progress channel sends carry no
control flow and are omitted. -/
def apply113c (env : PatchEnv) (path : String) : Except Err Unit :=
  match env.fetchManifest "1.13c/manifest.json" with
  | .error e => .error e
  | .ok manifest =>
    match getFilesToPatch env.fs manifest.Files path [] with
    | .error e => .error e
    | .ok (patchFiles, patchLength) =>
      if patchFiles.length > 0 then
        match (doPatch env.dl env.rn patchFiles patchLength "1.13c" path).1 with
        | .error patchErr =>
          match (cleanUpFailedPatch env.rmOk env.listDir path).1 with
          | .error cleanErr => .error (.cleanupCompose patchErr cleanErr)
          | .ok _ => .error patchErr
        | .ok _ => .ok ()
      else .ok ()

/-- A concrete environment for the C5 witness: the 1.13c manifest has one
file, which is locally absent; its download fails; cleanup also fails. -/
def envC5 : PatchEnv where
  fetchManifest := fun p =>
    if p = "1.13c/manifest.json" then .ok ⟨[⟨"a", "AA", 10⟩]⟩
    else .error (.manifestFetch p)
  fs := fun _ => .absent
  dl := fun _ => false
  rn := fun _ => true
  rmOk := fun _ => false
  listDir := fun _ => .ok ["a.tmp"]

/-- Point update of the filesystem: the effect of a successful
`os.Remove`. -/
def FS.remove (fs : FS) (p : String) : FS :=
  fun q => if q = p then LocalFile.absent else fs q

/-- The deletion loop of `resetPatch`: for each manifest file, stat it
(absent files are skipped as a no-op; a non-NotFound stat error aborts),
skip it when its name is ignored, otherwise remove it from disk (a failed
remove aborts). Returns the final filesystem and the removed paths. -/
def resetRemoveLoop (rmOk : String → Bool) (path : String)
    (filesToIgnore : List String) :
    FS → List PatchFile → Except Err Unit × FS × List String
  | fs, [] => (.ok (), fs, [])
  | fs, file :: rest =>
    let filePath := localizePath (joinPath path file.Name)
    match fs filePath with
    | .absent => resetRemoveLoop rmOk path filesToIgnore fs rest
    | .ioError => (.error (.statFail filePath), fs, [])
    | .present _ =>
      if file.Name ∈ filesToIgnore then
        resetRemoveLoop rmOk path filesToIgnore fs rest
      else if rmOk filePath then
        match resetRemoveLoop rmOk path filesToIgnore (fs.remove filePath) rest with
        | (r, fs', removed) => (r, fs', filePath :: removed)
      else (.error (.removeFail filePath), fs, [])

/-- `resetPatch(path, files, filesToIgnore)` from `service.go`: computes
the stale-file diff; only when the number of stale files differs from the
total manifest count does it run the deletion loop. -/
def resetPatch (rmOk : String → Bool) (fs : FS) (path : String)
    (files : List PatchFile) (filesToIgnore : List String) :
    Except Err Unit × FS × List String :=
  match getFilesToPatch fs files path filesToIgnore with
  | .error e => (.error e, fs, [])
  | .ok (missmatchedFiles, _) =>
    if missmatchedFiles.length ≠ files.length then
      resetRemoveLoop rmOk path filesToIgnore fs files
    else (.ok (), fs, [])

/-- An all-absent filesystem for witnesses. -/
def fsAbsent : FS := fun _ => .absent

/-- `storage.Game`: one configured install, read-only for the service. -/
structure Game where
  ID : String
  Location : String
  Instances : Int
  Maphack : Bool
  HD : Bool
  OverrideBHCfg : Bool
  Flags : List String
deriving DecidableEq, Repr

/-- `isMaphackInstalled(path)` from the platform shim: presence of the
`BH.dll` marker file; a non-NotFound stat error is fatal. -/
def isMaphackInstalled (fs : FS) (path : String) : Except Err Bool :=
  match fs (localizePath (joinPath path "BH.dll")) with
  | .absent => .ok false
  | .present _ => .ok true
  | .ioError => .error (.statFail (localizePath (joinPath path "BH.dll")))

/-- `isHDInstalled(path)` from the platform shim: presence of the
`D2HD.dll` marker file. -/
def isHDInstalled (fs : FS) (path : String) : Except Err Bool :=
  match fs (localizePath (joinPath path "D2HD.dll")) with
  | .absent => .ok false
  | .present _ => .ok true
  | .ioError => .error (.statFail (localizePath (joinPath path "D2HD.dll")))

/-- The collaborators `ValidateGameVersions` depends on. -/
structure ValidateEnv where
  configRead : Except Err (List Game)
  fetchManifest : String → Except Err Manifest
  fs : FS
  validate113cVersion : String → Except Err Bool

/-- The per-install body of `ValidateGameVersions`' loop: 1.13c check,
slash-layer diff, maphack-layer diff (honoring the BH.cfg override) or
marker check when maphack is disabled, then the same for HD. The two
early-return shapes of the Go code (diff non-empty when the layer is
enabled; marker present when it is disabled) are merged into one stop
flag per layer. -/
def validateGame (fs : FS) (v113 : String → Except Err Bool)
    (slashM maphackM hdM : Manifest) (g : Game) : Except Err Bool :=
  match v113 g.Location with
  | .error e => .error e
  | .ok valid =>
  if !valid then .ok false
  else
  match getFilesToPatch fs slashM.Files g.Location [] with
  | .error e => .error e
  | .ok (slashFiles, _) =>
  if slashFiles.length > 0 then .ok false
  else
  match getFilesToPatch fs maphackM.Files g.Location
      (if g.OverrideBHCfg then ["BH.cfg"] else []) with
  | .error e => .error e
  | .ok (missingMaphackFiles, _) =>
  match (if g.Maphack then Except.ok (decide (missingMaphackFiles.length > 0))
         else isMaphackInstalled fs g.Location) with
  | .error e => .error e
  | .ok stopMaphack =>
  if stopMaphack then .ok false
  else
  match getFilesToPatch fs hdM.Files g.Location [] with
  | .error e => .error e
  | .ok (missingHDFiles, _) =>
  match (if g.HD then Except.ok (decide (missingHDFiles.length > 0))
         else isHDInstalled fs g.Location) with
  | .error e => .error e
  | .ok stopHD =>
  if stopHD then .ok false
  else .ok true

/-- The install loop of `ValidateGameVersions`: short-circuits on the
first mismatch or error; an empty config is up to date. -/
def validateLoop (fs : FS) (v113 : String → Except Err Bool)
    (slashM maphackM hdM : Manifest) : List Game → Except Err Bool
  | [] => .ok true
  | g :: rest =>
    match validateGame fs v113 slashM maphackM hdM g with
    | .error e => .error e
    | .ok false => .ok false
    | .ok true => validateLoop fs v113 slashM maphackM hdM rest

/-- `ValidateGameVersions()` from `service.go`, with a trace of its
observable effects: it fetches the three layer manifests and otherwise
only reads. -/
def ValidateGameVersions (env : ValidateEnv) : Except Err Bool × List Ev :=
  match env.configRead with
  | .error e => (.error e, [])
  | .ok games =>
    match env.fetchManifest "current/manifest.json" with
    | .error e => (.error e, [.fetch "current/manifest.json"])
    | .ok slashManifest =>
      match env.fetchManifest "maphack/manifest.json" with
      | .error e =>
        (.error e, [.fetch "current/manifest.json", .fetch "maphack/manifest.json"])
      | .ok maphackManifest =>
        match env.fetchManifest "hd/manifest.json" with
        | .error e =>
          (.error e, [.fetch "current/manifest.json",
            .fetch "maphack/manifest.json", .fetch "hd/manifest.json"])
        | .ok HDManifest =>
          (validateLoop env.fs env.validate113cVersion slashManifest
              maphackManifest HDManifest games,
           [.fetch "current/manifest.json", .fetch "maphack/manifest.json",
            .fetch "hd/manifest.json"])

/-- Spec-side: one install passes validation — base version correct, the
slash layer matches exactly, the maphack and HD layers match their
enabled/disabled state (the enabled diff honoring the BH.cfg override;
the disabled state shown by an absent marker file), and both optional
diffs are computable. -/
def GamePasses (fs : FS) (v113 : String → Except Err Bool)
    (slashM maphackM hdM : Manifest) (g : Game) : Prop :=
  v113 g.Location = .ok true ∧
  (∃ t, getFilesToPatch fs slashM.Files g.Location [] = .ok ([], t)) ∧
  (∃ L t, getFilesToPatch fs maphackM.Files g.Location
      (if g.OverrideBHCfg then ["BH.cfg"] else []) = .ok (L, t) ∧
    (g.Maphack = true → L = [])) ∧
  (g.Maphack = false → isMaphackInstalled fs g.Location = .ok false) ∧
  (∃ L t, getFilesToPatch fs hdM.Files g.Location [] = .ok (L, t) ∧
    (g.HD = true → L = [])) ∧
  (g.HD = false → isHDInstalled fs g.Location = .ok false)

/-- Concrete manifests, install and environment for the C7 witness. -/
def slashMW : Manifest := ⟨[⟨"a", "AA", 10⟩]⟩

def mhMW : Manifest := ⟨[⟨"BH.cfg", "BB", 5⟩]⟩

def hdMW : Manifest := ⟨[]⟩

def gW : Game := ⟨"X", "D", 1, false, false, false, []⟩

def fsV : FS := fun p => if p = "D/a" then .present "AA" else .absent

def envV : ValidateEnv where
  configRead := .ok [gW]
  fetchManifest := fun p =>
    if p = "current/manifest.json" then .ok slashMW
    else if p = "maphack/manifest.json" then .ok mhMW
    else if p = "hd/manifest.json" then .ok hdMW
    else .error (.manifestFetch p)
  fs := fsV
  validate113cVersion := fun _ => .ok true

/-- `game` from `service.go`: one tracked running instance. -/
structure game where
  PID : Int
  GameID : String
deriving DecidableEq, Repr

/-- `mutateInstancesToLaunch(games)` from `service.go`: subtracts from
each configured install's desired instance count the number of currently
tracked running instances carrying that install's id. The count may go
negative, exactly as the Go `int` subtraction does. -/
def mutateInstancesToLaunch (games : List Game) (runningGames : List game) :
    List Game :=
  games.map (fun g =>
    { g with Instances := g.Instances -
        ((runningGames.filter (fun r => r.GameID == g.ID)).length : Int) })

/-- The collaborators `Exec` depends on: the config read and the launch
primitive, indexed by a global launch counter so distinct calls may
return distinct pids or fail independently. -/
structure ExecEnv where
  configRead : Except Err (List Game)
  launch : Nat → Except Err Int

/-- The inner launch loop of `Exec` for one install:
`for i := 0; i < g.Instances; i++`, hence `max 0 Instances` iterations.
Each successful launch appends the new pid to the shared `runningGames`
slice without taking the lock (a `writeRunning` event); a failed launch
aborts `Exec`. -/
def launchLoop (launch : Nat → Except Err Int) (g : Game) :
    Nat → Nat → List game → Except Err Unit × List game × Nat × List Ev
  | 0, k, running => (.ok (), running, k, [])
  | n + 1, k, running =>
    match launch k with
    | .error _ => (.error .launchFail, running, k + 1, [])
    | .ok pid =>
      match launchLoop launch g n (k + 1) (running ++ [⟨pid, g.ID⟩]) with
      | (r, running', k', evs) =>
        (r, running', k', Ev.launchStart g.ID :: Ev.writeRunning :: evs)

/-- The outer loop of `Exec` over the configured installs. -/
def execGames (launch : Nat → Except Err Int) :
    List Game → Nat → List game → Except Err Unit × List game × Nat × List Ev
  | [], k, running => (.ok (), running, k, [])
  | g :: rest, k, running =>
    match launchLoop launch g g.Instances.toNat k running with
    | (.error e, running', k', evs) => (.error e, running', k', evs)
    | (.ok _, running', k', evs) =>
      match execGames launch rest k' running' with
      | (r, running'', k'', evs2) => (r, running'', k'', evs ++ evs2)

/-- `Exec()` from `service.go`: reads the config, mutates the per-install
desired counts by the tracked running counts (scanning `runningGames`
without the lock — one `readRunning` event per configured install), then
launches the computed number of instances per install, appending each new
pid to `runningGames`, again without the lock. -/
def Exec (env : ExecEnv) (runningGames : List game) :
    Except Err Unit × List game × List Ev :=
  match env.configRead with
  | .error e => (.error e, runningGames, [])
  | .ok games =>
    match execGames env.launch (mutateInstancesToLaunch games runningGames)
        0 runningGames with
    | (r, running', _, evs) =>
      (r, running', games.map (fun _ => Ev.readRunning) ++ evs)

/-- Number of processes started for a given install id, read off a
trace. -/
def startedCount (evs : List Ev) (id : String) : Nat :=
  evs.count (Ev.launchStart id)

/-- A configured install whose desired count is below its tracked count,
for the C8 counterexample. -/
def gNeg : Game := ⟨"X", "D", 0, false, false, false, []⟩

/-- Environment for the C8 counterexample: one install with desired count
0, every launch succeeding. -/
def envNeg : ExecEnv where
  configRead := .ok [gNeg]
  launch := fun k => .ok (100 + (k : Int))

/-- Concrete input for the C8 witness: desired count 3, two tracked
instances. -/

def g8 : Game := ⟨"X", "D", 3, false, false, false, []⟩

def env8 : ExecEnv where
  configRead := .ok [g8]
  launch := fun k => .ok (200 + (k : Int))

def running8 : List game := [⟨1, "X"⟩, ⟨2, "X"⟩]

/-- `execState` from `service.go`: one process-exit notification. -/
structure execState where
  pid : Option Int
  err : Option String
deriving DecidableEq, Repr

/-- A Go runtime panic raised by the embedded slice operations. -/
inductive GoPanic where
  | sliceOutOfRange
deriving DecidableEq, Repr

/-- `state.pid != nil && g.PID == *state.pid` from the removal loop. -/
def pidMatches (pid : Option Int) (g : game) : Bool :=
  match pid with
  | none => false
  | some p => g.PID == p

/-- In-place Go-slice removal `append(s[:i], s[i+1:]...)` over a backing
array `arr` whose current slice view has length `len`: positions
`i .. len-2` receive the shifted tail of the view, positions from
`len-1` keep their stale values. Meaningful when `i + 1 ≤ len`. -/
def goShiftRemove (arr : List game) (len i : Nat) : List game :=
  arr.take i ++ (arr.drop (i + 1)).take (len - (i + 1)) ++ arr.drop (len - 1)

/-- The `for index, g := range s.runningGames` loop of
`listenForGameStates`: the range header (its length `n`, passed as the
`remaining` iteration count) is captured once, while each removal
re-slices `s.runningGames` in place to `(arr, len)`; the body keeps
reading the shared backing array. `s[index+1:]` panics when `index + 1`
exceeds the current slice length. One `readRunning` event per iteration,
one `writeRunning` per removal. -/
def listenRemoveAux (pid : Option Int) :
    Nat → List game → Nat → Nat → Except GoPanic (List game × Nat) × List Ev
  | 0, arr, len, _ => (.ok (arr, len), [])
  | remaining + 1, arr, len, i =>
    match arr[i]? with
    | none => (.ok (arr, len), [])
    | some g =>
      if pidMatches pid g then
        if i + 1 ≤ len then
          match listenRemoveAux pid remaining (goShiftRemove arr len i)
              (len - 1) (i + 1) with
          | (r, evs) => (r, Ev.readRunning :: Ev.writeRunning :: evs)
        else (.error .sliceOutOfRange, [Ev.readRunning])
      else
        match listenRemoveAux pid remaining arr len (i + 1) with
        | (r, evs) => (r, Ev.readRunning :: evs)

/-- One iteration of `listenForGameStates` from `service.go`: a non-nil
error in the notification is only logged; then, holding the lock, the
tracked instances matching the notification's pid are removed with the
in-place slice removal; the resulting tracked list is the final slice
view. A panic escapes with the lock still held (no `unlock` event). -/
def processGameState (st : execState) (runningGames : List game) :
    Except GoPanic (List game) × List Ev :=
  let logEvs : List Ev :=
    match st.err with
    | some msg => [Ev.logged msg]
    | none => []
  match listenRemoveAux st.pid runningGames.length runningGames
      runningGames.length 0 with
  | (.error p, evs) => (.error p, logEvs ++ [Ev.lock] ++ evs)
  | (.ok (arr, len), evs) =>
    (.ok (arr.take len), logEvs ++ [Ev.lock] ++ evs ++ [Ev.unlock])

/-- Lock-discipline check over a trace: every `readRunning` and
`writeRunning` event must occur while the lock depth is positive. -/
def accessesLockedFrom : Nat → List Ev → Bool
  | _, [] => true
  | d, Ev.lock :: rest => accessesLockedFrom (d + 1) rest
  | d, Ev.unlock :: rest => accessesLockedFrom (d - 1) rest
  | d, Ev.readRunning :: rest => decide (0 < d) && accessesLockedFrom d rest
  | d, Ev.writeRunning :: rest => decide (0 < d) && accessesLockedFrom d rest
  | d, _ :: rest => accessesLockedFrom d rest

/-- A whole trace respects the lock discipline, starting unlocked. -/
def accessesLocked (evs : List Ev) : Bool := accessesLockedFrom 0 evs

/-- Environment for C9: one configured install with desired count 1,
launches succeeding. -/
def envC9 : ExecEnv where
  configRead := .ok [⟨"X", "D", 1, false, false, false, []⟩]
  launch := fun _ => .ok 7

instance {e a : Type} [DecidableEq e] [DecidableEq a] :
    DecidableEq (Except e a) := fun x y =>
  match x, y with
  | .error u, .error v => decidable_of_iff (u = v) (by simp)
  | .error _, .ok _ => isFalse Except.noConfusion
  | .ok _, .error _ => isFalse Except.noConfusion
  | .ok u, .ok v => decidable_of_iff (u = v) (by simp)

theorem getFilesToPatch_eq_plan (fs : FS) (files : List PatchFile) (d2path : String)
    (I : List String)
    (hio : ∀ f ∈ files, f.Name ∉ I →
      fs (localizePath (joinPath d2path f.Name)) ≠ LocalFile.ioError) :
    getFilesToPatch fs files d2path I =
      Except.ok ((planFilter fs d2path I files).map PatchFile.Name,
        ((planFilter fs d2path I files).map PatchFile.ContentLength).sum) := by
  induction files with
  | nil => simp [getFilesToPatch, planFilter]
  | cons f rest ih =>
    have hiorest : ∀ g ∈ rest, g.Name ∉ I →
        fs (localizePath (joinPath d2path g.Name)) ≠ LocalFile.ioError :=
      fun g hg => hio g (List.mem_cons_of_mem _ hg)
    by_cases hmem : f.Name ∈ I
    · simp [getFilesToPatch, hmem, planFilter, List.filter_cons, needsPatch,
        ih hiorest]
    · cases hfs : fs (localizePath (joinPath d2path f.Name)) with
      | absent =>
        simp [getFilesToPatch, hmem, hashCRC32, hfs, planFilter,
          List.filter_cons, needsPatch, ih hiorest]
      | present c =>
        by_cases hcrc : c = f.CRC
        · simp [getFilesToPatch, hmem, hashCRC32, hfs, hcrc, planFilter,
            List.filter_cons, needsPatch, ih hiorest]
        · simp [getFilesToPatch, hmem, hashCRC32, hfs, hcrc, planFilter,
            List.filter_cons, needsPatch, ih hiorest]
      | ioError => exact absurd hfs (hio f (List.mem_cons_self _ _) hmem)

theorem getFilesToPatch_empty_iff (fs : FS) (files : List PatchFile)
    (d2path : String) :
    (∃ t, getFilesToPatch fs files d2path [] = Except.ok ([], t)) ↔
      ∀ f ∈ files, fs (localizePath (joinPath d2path f.Name)) =
        LocalFile.present f.CRC := by
  induction files with
  | nil => simp [getFilesToPatch]
  | cons f rest ih =>
    constructor
    · rintro ⟨t, ht⟩
      cases hfs : fs (localizePath (joinPath d2path f.Name)) with
      | absent =>
        exfalso
        simp [getFilesToPatch, hashCRC32, hfs] at ht
        cases hrest : getFilesToPatch fs rest d2path [] with
        | error e => rw [hrest] at ht; simp at ht
        | ok p => rw [hrest] at ht; obtain ⟨l, t'⟩ := p; simp at ht
      | present c =>
        by_cases hcrc : c = f.CRC
        · intro g hg
          rcases List.mem_cons.mp hg with rfl | hg'
          · rw [hfs, hcrc]
          · refine ih.mp ⟨t, ?_⟩ g hg'
            simpa [getFilesToPatch, hashCRC32, hfs, hcrc] using ht
        · exfalso
          simp [getFilesToPatch, hashCRC32, hfs, hcrc] at ht
          cases hrest : getFilesToPatch fs rest d2path [] with
          | error e => rw [hrest] at ht; simp at ht
          | ok p => rw [hrest] at ht; obtain ⟨l, t'⟩ := p; simp at ht
      | ioError =>
        exfalso
        simp [getFilesToPatch, hashCRC32, hfs] at ht
    · intro h
      have hf := h f (List.mem_cons_self _ _)
      obtain ⟨t, ht⟩ := ih.mpr (fun g hg => h g (List.mem_cons_of_mem _ hg))
      refine ⟨t, ?_⟩
      simp [getFilesToPatch, hashCRC32, hf, ht]

/-- C1: the diff plan (`getFilesToPatch`) includes exactly the non-ignored
manifest files whose local lookup signals NotFound or whose checksum
differs, in manifest order; the returned total is the sum of the declared
content lengths of the included files; and with an empty ignore list the
plan is empty iff every manifest file is locally present with matching
checksum. -/
theorem C1_diff_plan (fs : FS) (files : List PatchFile) (d2path : String)
    (I : List String)
    (hio : ∀ f ∈ files, f.Name ∉ I →
      fs (localizePath (joinPath d2path f.Name)) ≠ LocalFile.ioError) :
    getFilesToPatch fs files d2path I =
      Except.ok ((planFilter fs d2path I files).map PatchFile.Name,
        ((planFilter fs d2path I files).map PatchFile.ContentLength).sum) ∧
    ((∃ t, getFilesToPatch fs files d2path [] = Except.ok ([], t)) ↔
      ∀ f ∈ files, fs (localizePath (joinPath d2path f.Name)) =
        LocalFile.present f.CRC) :=
  ⟨getFilesToPatch_eq_plan fs files d2path I hio,
   getFilesToPatch_empty_iff fs files d2path⟩

/-- Witness for C1 at a concrete manifest, directory and ignore list. -/
theorem C1_diff_plan_witness :
    getFilesToPatch fsW filesW "D" ["b"] =
      Except.ok ((planFilter fsW "D" ["b"] filesW).map PatchFile.Name,
        ((planFilter fsW "D" ["b"] filesW).map PatchFile.ContentLength).sum) ∧
    ((∃ t, getFilesToPatch fsW filesW "D" [] = Except.ok ([], t)) ↔
      ∀ f ∈ filesW, fsW (localizePath (joinPath "D" f.Name)) =
        LocalFile.present f.CRC) :=
  C1_diff_plan fsW filesW "D" ["b"] (by decide)

theorem dropTmp_append_tmp (s : String) : dropTmp (s ++ ".tmp") = s := by
  have h : (s ++ ".tmp").data = s.data ++ (".tmp" : String).data := rfl
  have h4 : (".tmp" : String).data.length = 4 := rfl
  apply String.ext
  simp [dropTmp, h, List.length_append, h4, List.take_left]

theorem downloadAll_events (dl : String → Bool) (path : String)
    (patchFiles : List String) :
    ∀ ev ∈ (downloadAll dl path patchFiles).2, ∃ f b, ev = Ev.download f b := by
  induction patchFiles with
  | nil => simp [downloadAll]
  | cons f rest ih =>
    by_cases h : dl f
    · cases hrec : downloadAll dl path rest with
      | mk r evs =>
        rw [hrec] at ih
        cases r with
        | error e =>
          simp only [downloadAll, h, if_true, hrec]
          intro ev hev
          rcases List.mem_cons.mp hev with rfl | hev'
          · exact ⟨f, true, rfl⟩
          · exact ih ev hev'
        | ok tmps =>
          simp only [downloadAll, h, if_true, hrec]
          intro ev hev
          rcases List.mem_cons.mp hev with rfl | hev'
          · exact ⟨f, true, rfl⟩
          · exact ih ev hev'
    · simp only [downloadAll, h, if_false]
      intro ev hev
      rcases List.mem_cons.mp hev with rfl | hev'
      · exact ⟨f, false, rfl⟩
      · simp at hev'

theorem downloadAll_fails (dl : String → Bool) (path : String)
    (patchFiles : List String) (hf : ∃ f ∈ patchFiles, dl f = false) :
    ∃ e, (downloadAll dl path patchFiles).1 = .error e := by
  induction patchFiles with
  | nil => simp at hf
  | cons f rest ih =>
    by_cases h : dl f
    · obtain ⟨g, hg, hgf⟩ := hf
      rcases List.mem_cons.mp hg with rfl | hg'
      · rw [h] at hgf; exact absurd hgf (by simp)
      · obtain ⟨e, he⟩ := ih ⟨g, hg', hgf⟩
        cases hrec : downloadAll dl path rest with
        | mk r evs =>
          rw [hrec] at he
          cases r with
          | error e' => exact ⟨e', by simp [downloadAll, h, hrec]⟩
          | ok tmps => simp at he
    · exact ⟨.downloadFail f, by simp [downloadAll, h]⟩

theorem downloadAll_ok (dl : String → Bool) (path : String)
    (patchFiles : List String) (h : ∀ f ∈ patchFiles, dl f = true) :
    downloadAll dl path patchFiles =
      (.ok (patchFiles.map (fun f => localizePath (joinPath path f ++ ".tmp"))),
       patchFiles.map (fun f => Ev.download f true)) := by
  induction patchFiles with
  | nil => simp [downloadAll]
  | cons f rest ih =>
    have hf := h f (List.mem_cons_self _ _)
    simp [downloadAll, hf, ih (fun g hg => h g (List.mem_cons_of_mem _ hg))]

theorem renameAll_ok (rn : String → Bool) (tmps : List String)
    (h : ∀ p ∈ tmps, rn p = true) :
    renameAll rn tmps =
      (.ok (), tmps.map (fun t => Ev.rename t (dropTmp t))) := by
  induction tmps with
  | nil => simp [renameAll]
  | cons t rest ih =>
    have htt := h t (List.mem_cons_self _ _)
    simp [renameAll, htt, ih (fun p hp => h p (List.mem_cons_of_mem _ hp))]

/-- C2: `doPatch` is two-phase. If any single download fails, the call
returns an error and no staged file has been renamed; if every download
succeeds (and renames succeed), every staged file is renamed to its final
name, in the same order the files were downloaded. -/
theorem C2_doPatch_two_phase (dl rn : String → Bool) (patchFiles : List String)
    (patchLength : Int) (remoteDir path : String) :
    ((∃ f ∈ patchFiles, dl f = false) →
      (∃ e, (doPatch dl rn patchFiles patchLength remoteDir path).1 =
        .error e) ∧
      ∀ ev ∈ (doPatch dl rn patchFiles patchLength remoteDir path).2,
        ∀ src dst, ev ≠ .rename src dst) ∧
    ((∀ f ∈ patchFiles, dl f = true) → (∀ p, rn p = true) →
      (doPatch dl rn patchFiles patchLength remoteDir path).1 = .ok () ∧
      (doPatch dl rn patchFiles patchLength remoteDir path).2 =
        patchFiles.map (fun f => Ev.download f true) ++
        patchFiles.map (fun f =>
          Ev.rename (localizePath (joinPath path f ++ ".tmp"))
            (localizePath (joinPath path f)))) := by
  constructor
  · intro hf
    obtain ⟨e, he⟩ := downloadAll_fails dl path patchFiles hf
    have hev := downloadAll_events dl path patchFiles
    cases hrec : downloadAll dl path patchFiles with
    | mk r evs =>
      rw [hrec] at he hev
      cases r with
      | error e' =>
        refine ⟨⟨e', by simp [doPatch, hrec]⟩, ?_⟩
        intro ev hmem src dst
        simp only [doPatch, hrec] at hmem
        obtain ⟨g, b, rfl⟩ := hev ev hmem
        simp
      | ok tmps => simp at he
  · intro hdl hrn
    have hd := downloadAll_ok dl path patchFiles hdl
    have hr := renameAll_ok rn
      (patchFiles.map (fun f => localizePath (joinPath path f ++ ".tmp")))
      (fun p _ => hrn p)
    constructor
    · simp [doPatch, hd, hr]
    · simp only [doPatch, hd, hr]
      congr 1
      simp only [List.map_map]
      refine List.map_congr_left ?_
      intro f _
      simp [Function.comp, localizePath, dropTmp_append_tmp]

/-- Witness for C2: a failing download among two planned files, and a
fully successful run of the same plan. -/
theorem C2_doPatch_two_phase_witness :
    (((∃ e, (doPatch (fun f => f == "a") (fun _ => true) ["a", "b"] 30 "1.13c"
        "D").1 = .error e) ∧
      ∀ ev ∈ (doPatch (fun f => f == "a") (fun _ => true) ["a", "b"] 30 "1.13c"
        "D").2, ∀ src dst, ev ≠ .rename src dst)) ∧
    ((doPatch (fun _ => true) (fun _ => true) ["a", "b"] 30 "1.13c" "D").1 =
        .ok () ∧
      (doPatch (fun _ => true) (fun _ => true) ["a", "b"] 30 "1.13c" "D").2 =
        (["a", "b"] : List String).map (fun f => Ev.download f true) ++
        (["a", "b"] : List String).map (fun f =>
          Ev.rename (localizePath (joinPath "D" f ++ ".tmp"))
            (localizePath (joinPath "D" f)))) :=
  ⟨(C2_doPatch_two_phase (fun f => f == "a") (fun _ => true) ["a", "b"] 30
      "1.13c" "D").1 ⟨"b", by decide, by decide⟩,
   (C2_doPatch_two_phase (fun _ => true) (fun _ => true) ["a", "b"] 30
      "1.13c" "D").2 (by decide) (fun _ => rfl)⟩

theorem removeTmpLoop_ok (rmOk : String → Bool) (dir : String)
    (listing : List String) (h : ∀ p, rmOk p = true) :
    removeTmpLoop rmOk dir listing =
      (.ok (), (listing.filter containsTmp).map
        (fun n => localizePath (joinPath dir n))) := by
  induction listing with
  | nil => simp [removeTmpLoop]
  | cons n rest ih =>
    by_cases hc : containsTmp n
    · simp [removeTmpLoop, hc, h, ih, List.filter_cons]
    · simp [removeTmpLoop, hc, ih, List.filter_cons]

theorem stagingSuffix_containsTmp (n : String) (h : hasStagingSuffix n = true) :
    containsTmp n = true := by
  have hs : (".tmp" : String).data <:+ n.data :=
    List.isSuffixOf_iff_suffix.mp h
  simpa [containsTmp] using hs.isInfix

/-- C4 counterexample: the claim says a file is removed iff its name ends
with the staging suffix ".tmp", but `cleanUpFailedPatch` removes
`a.tmp.bak`, whose name does not end with ".tmp" — removal is by
substring containment, not by suffix. -/
theorem C4_counterexample :
    (cleanUpFailedPatch (fun _ => true) (fun _ => .ok ["a.tmp.bak"]) "D").2 =
      ["D/a.tmp.bak"] ∧ hasStagingSuffix "a.tmp.bak" = false := by decide

/-- C4 amended: with removals succeeding, `cleanUpFailedPatch` removes
exactly the top-level entries whose names contain ".tmp" as a substring;
in particular every entry carrying the staging suffix is removed, but a
final-named file whose name merely contains ".tmp" is removed as well. -/
theorem C4_cleanup_removes_contains (rmOk : String → Bool)
    (listing : List String) (dir : String) (hrm : ∀ p, rmOk p = true) :
    (cleanUpFailedPatch rmOk (fun _ => .ok listing) dir).1 = .ok () ∧
    (cleanUpFailedPatch rmOk (fun _ => .ok listing) dir).2 =
      (listing.filter containsTmp).map
        (fun n => localizePath (joinPath dir n)) ∧
    ∀ n ∈ listing, hasStagingSuffix n = true →
      localizePath (joinPath dir n) ∈
        (cleanUpFailedPatch rmOk (fun _ => .ok listing) dir).2 := by
  have hloop := removeTmpLoop_ok rmOk dir listing hrm
  refine ⟨by simp [cleanUpFailedPatch, hloop], by simp [cleanUpFailedPatch, hloop], ?_⟩
  intro n hn hsfx
  simp only [cleanUpFailedPatch, hloop]
  exact List.mem_map_of_mem _
    (List.mem_filter.mpr ⟨hn, stagingSuffix_containsTmp n hsfx⟩)

/-- Witness for C4's amended claim at a concrete directory listing. -/
theorem C4_cleanup_removes_contains_witness :
    (cleanUpFailedPatch (fun _ => true)
      (fun _ => .ok ["x.tmp", "Game.exe"]) "D").1 = .ok () ∧
    (cleanUpFailedPatch (fun _ => true)
      (fun _ => .ok ["x.tmp", "Game.exe"]) "D").2 =
      ((["x.tmp", "Game.exe"] : List String).filter containsTmp).map
        (fun n => localizePath (joinPath "D" n)) ∧
    ∀ n ∈ (["x.tmp", "Game.exe"] : List String), hasStagingSuffix n = true →
      localizePath (joinPath "D" n) ∈
        (cleanUpFailedPatch (fun _ => true)
          (fun _ => .ok ["x.tmp", "Game.exe"]) "D").2 :=
  C4_cleanup_removes_contains (fun _ => true) ["x.tmp", "Game.exe"] "D"
    (fun _ => rfl)

/-- C5: when `doPatch` fails inside `apply113c`, a failing cleanup yields
one error composed from both the original patch error and the cleanup
error, and a successful cleanup yields exactly the original patch
error. -/
theorem C5_cleanup_error_compose (env : PatchEnv) (path : String)
    (manifest : Manifest) (patchFiles : List String) (patchLength : Int)
    (e : Err)
    (hm : env.fetchManifest "1.13c/manifest.json" = .ok manifest)
    (hg : getFilesToPatch env.fs manifest.Files path [] =
      .ok (patchFiles, patchLength))
    (hne : patchFiles.length > 0)
    (hfail : (doPatch env.dl env.rn patchFiles patchLength "1.13c" path).1 =
      .error e) :
    (∀ c, (cleanUpFailedPatch env.rmOk env.listDir path).1 = .error c →
      apply113c env path = .error (.cleanupCompose e c)) ∧
    ((cleanUpFailedPatch env.rmOk env.listDir path).1 = .ok () →
      apply113c env path = .error e) := by
  constructor
  · intro c hc
    simp [apply113c, hm, hg, hne, hfail, hc]
  · intro hc
    simp [apply113c, hm, hg, hne, hfail, hc]

/-- Witness for C5 at `envC5`. -/
theorem C5_cleanup_error_compose_witness :
    (∀ c, (cleanUpFailedPatch envC5.rmOk envC5.listDir "D").1 = .error c →
      apply113c envC5 "D" = .error (.cleanupCompose (.downloadFail "a") c)) ∧
    ((cleanUpFailedPatch envC5.rmOk envC5.listDir "D").1 = .ok () →
      apply113c envC5 "D" = .error (.downloadFail "a")) :=
  C5_cleanup_error_compose envC5 "D" ⟨[⟨"a", "AA", 10⟩]⟩ ["a"] 10
    (.downloadFail "a") rfl rfl (by decide) rfl

theorem getFilesToPatch_length_le (fs : FS) (files : List PatchFile)
    (d2path : String) (I : List String) (L : List String) (T : Int)
    (h : getFilesToPatch fs files d2path I = .ok (L, T)) :
    L.length ≤ files.length := by
  induction files generalizing L T with
  | nil => simp [getFilesToPatch] at h; simp [h.1]
  | cons f rest ih =>
    by_cases hmem : f.Name ∈ I
    · simp only [getFilesToPatch, hmem, if_true] at h
      exact (ih L T h).trans (Nat.le_succ _)
    · cases hfs : fs (localizePath (joinPath d2path f.Name)) with
      | absent =>
        simp only [getFilesToPatch, hmem, if_false, hashCRC32, hfs] at h
        cases hrest : getFilesToPatch fs rest d2path I with
        | error e => rw [hrest] at h; simp at h
        | ok p =>
          obtain ⟨l, t⟩ := p
          rw [hrest] at h
          simp only [Except.ok.injEq, Prod.mk.injEq] at h
          rw [← h.1]
          simpa using Nat.succ_le_succ (ih l t hrest)
      | present c =>
        by_cases hcrc : c = f.CRC
        · simp only [getFilesToPatch, hmem, if_false, hashCRC32, hfs] at h
          rw [if_neg (by simp [hcrc])] at h
          exact (ih L T h).trans (Nat.le_succ _)
        · simp only [getFilesToPatch, hmem, if_false, hashCRC32, hfs] at h
          rw [if_pos (by simpa using hcrc)] at h
          cases hrest : getFilesToPatch fs rest d2path I with
          | error e => rw [hrest] at h; simp at h
          | ok p =>
            obtain ⟨l, t⟩ := p
            rw [hrest] at h
            simp only [Except.ok.injEq, Prod.mk.injEq] at h
            rw [← h.1]
            simpa using Nat.succ_le_succ (ih l t hrest)
      | ioError =>
        simp only [getFilesToPatch, hmem, if_false, hashCRC32, hfs] at h
        simp at h

theorem resetRemoveLoop_trace (rmOk : String → Bool) (path : String)
    (I : List String) (fs : FS) (files : List PatchFile) :
    ∀ p ∈ (resetRemoveLoop rmOk path I fs files).2.2,
      ∃ f ∈ files, p = localizePath (joinPath path f.Name) ∧ f.Name ∉ I ∧
        ∃ c, fs p = LocalFile.present c := by
  induction files generalizing fs with
  | nil => simp [resetRemoveLoop]
  | cons file rest ih =>
    intro p hp
    cases hfs : fs (localizePath (joinPath path file.Name)) with
    | absent =>
      simp only [resetRemoveLoop, hfs] at hp
      obtain ⟨f, hf, rfl, hfI, c, hc⟩ := ih fs p hp
      exact ⟨f, List.mem_cons_of_mem _ hf, rfl, hfI, c, hc⟩
    | ioError =>
      simp only [resetRemoveLoop, hfs] at hp
      simp at hp
    | present c0 =>
      by_cases hig : file.Name ∈ I
      · simp only [resetRemoveLoop, hfs, hig, if_true] at hp
        obtain ⟨f, hf, rfl, hfI, c, hc⟩ := ih fs p hp
        exact ⟨f, List.mem_cons_of_mem _ hf, rfl, hfI, c, hc⟩
      · by_cases hrm : rmOk (localizePath (joinPath path file.Name))
        · simp only [resetRemoveLoop, hfs, hig, if_false, hrm, if_true] at hp
          cases hrec : resetRemoveLoop rmOk path I
              (fs.remove (localizePath (joinPath path file.Name))) rest with
          | mk r q =>
            obtain ⟨fs', removed⟩ := q
            rw [hrec] at hp
            simp only at hp
            rcases List.mem_cons.mp hp with rfl | hp'
            · exact ⟨file, List.mem_cons_self _ _, rfl, hig, c0, hfs⟩
            · have := ih (fs.remove (localizePath (joinPath path file.Name))) p
                (by rw [hrec]; exact hp')
              obtain ⟨f, hf, rfl, hfI, c, hc⟩ := this
              refine ⟨f, List.mem_cons_of_mem _ hf, rfl, hfI, ?_⟩
              by_cases heq : localizePath (joinPath path f.Name) =
                  localizePath (joinPath path file.Name)
              · rw [FS.remove, if_pos heq] at hc
                exact absurd hc (by simp)
              · rw [FS.remove, if_neg heq] at hc
                exact ⟨c, hc⟩
        · simp only [resetRemoveLoop, hfs, hig, if_false, hrm] at hp
          simp at hp

theorem resetRemoveLoop_absent (rmOk : String → Bool) (path : String)
    (I : List String) (fs : FS) (files : List PatchFile)
    (h : ∀ f ∈ files, fs (localizePath (joinPath path f.Name)) =
      LocalFile.absent) :
    resetRemoveLoop rmOk path I fs files = (.ok (), fs, []) := by
  induction files with
  | nil => simp [resetRemoveLoop]
  | cons file rest ih =>
    have hf := h file (List.mem_cons_self _ _)
    simp only [resetRemoveLoop, hf]
    exact ih (fun f hfm => h f (List.mem_cons_of_mem _ hfm))

/-- C3: `resetPatch` deletes files only when the stale-file count is
strictly below the manifest total, every deleted path is a non-ignored
manifest file that was present on disk; when every manifest file is stale
no deletion occurs and the filesystem is untouched; and in particular
nothing is ever deleted from a directory holding none of the manifest's
files. -/
theorem C3_reset_guard (rmOk : String → Bool) (fs : FS) (path : String)
    (files : List PatchFile) (I : List String) :
    (∀ p ∈ (resetPatch rmOk fs path files I).2.2,
      (∃ m t, getFilesToPatch fs files path I = .ok (m, t) ∧
        m.length < files.length) ∧
      ∃ f ∈ files, p = localizePath (joinPath path f.Name) ∧ f.Name ∉ I ∧
        ∃ c, fs p = LocalFile.present c) ∧
    (∀ m t, getFilesToPatch fs files path I = .ok (m, t) →
      m.length = files.length →
      resetPatch rmOk fs path files I = (.ok (), fs, [])) ∧
    ((∀ f ∈ files, fs (localizePath (joinPath path f.Name)) =
        LocalFile.absent) →
      (resetPatch rmOk fs path files I).2.2 = []) := by
  refine ⟨?_, ?_, ?_⟩
  · intro p hp
    cases hdiff : getFilesToPatch fs files path I with
    | error e =>
      simp only [resetPatch, hdiff] at hp
      simp at hp
    | ok q =>
      obtain ⟨m, t⟩ := q
      by_cases hlen : m.length = files.length
      · simp only [resetPatch, hdiff, hlen, ne_eq, not_true_eq_false,
          if_false] at hp
        simp at hp
      · simp only [resetPatch, hdiff, ne_eq, hlen, not_false_eq_true,
          if_true] at hp
        refine ⟨⟨m, t, rfl, ?_⟩, resetRemoveLoop_trace rmOk path I fs files p hp⟩
        exact lt_of_le_of_ne
          (getFilesToPatch_length_le fs files path I m t hdiff) hlen
  · intro m t hdiff hlen
    simp [resetPatch, hdiff, hlen]
  · intro habs
    cases hdiff : getFilesToPatch fs files path I with
    | error e => simp [resetPatch, hdiff]
    | ok q =>
      obtain ⟨m, t⟩ := q
      by_cases hlen : m.length = files.length
      · simp [resetPatch, hdiff, hlen]
      · simp [resetPatch, hdiff, hlen,
          resetRemoveLoop_absent rmOk path I fs files habs]

/-- Witness for C3: with every manifest file absent the diff marks all of
them stale and `resetPatch` deletes nothing and leaves the filesystem
untouched. -/
theorem C3_reset_guard_witness :
    resetPatch (fun _ => true) fsAbsent "D" filesW [] =
      (.ok (), fsAbsent, []) :=
  (C3_reset_guard (fun _ => true) fsAbsent "D" filesW []).2.1
    ["a", "b", "c"] 35 rfl rfl

theorem getFilesToPatch_not_ignored (fs : FS) (files : List PatchFile)
    (d2path : String) (I : List String) (L : List String) (T : Int)
    (h : getFilesToPatch fs files d2path I = .ok (L, T)) :
    ∀ x ∈ L, x ∉ I := by
  induction files generalizing L T with
  | nil =>
    simp [getFilesToPatch] at h
    simp [h.1]
  | cons f rest ih =>
    by_cases hmem : f.Name ∈ I
    · simp only [getFilesToPatch, hmem, if_true] at h
      exact ih L T h
    · cases hfs : fs (localizePath (joinPath d2path f.Name)) with
      | absent =>
        simp only [getFilesToPatch, hmem, if_false, hashCRC32, hfs] at h
        cases hrest : getFilesToPatch fs rest d2path I with
        | error e => rw [hrest] at h; simp at h
        | ok p =>
          obtain ⟨l, t⟩ := p
          rw [hrest] at h
          simp only [Except.ok.injEq, Prod.mk.injEq] at h
          rw [← h.1]
          intro x hx
          rcases List.mem_cons.mp hx with rfl | hx'
          · exact hmem
          · exact ih l t hrest x hx'
      | present c =>
        by_cases hcrc : c = f.CRC
        · simp only [getFilesToPatch, hmem, if_false, hashCRC32, hfs] at h
          rw [if_neg (by simp [hcrc])] at h
          exact ih L T h
        · simp only [getFilesToPatch, hmem, if_false, hashCRC32, hfs] at h
          rw [if_pos (by simpa using hcrc)] at h
          cases hrest : getFilesToPatch fs rest d2path I with
          | error e => rw [hrest] at h; simp at h
          | ok p =>
            obtain ⟨l, t⟩ := p
            rw [hrest] at h
            simp only [Except.ok.injEq, Prod.mk.injEq] at h
            rw [← h.1]
            intro x hx
            rcases List.mem_cons.mp hx with rfl | hx'
            · exact hmem
            · exact ih l t hrest x hx'
      | ioError =>
        simp only [getFilesToPatch, hmem, if_false, hashCRC32, hfs] at h
        simp at h

theorem joinPath_inj {D a b : String} (h : joinPath D a = joinPath D b) :
    a = b := by
  have h' : (D ++ "/").data ++ a.data = (D ++ "/").data ++ b.data :=
    congrArg String.data h
  exact String.ext (List.append_cancel_left h')

/-- C6: a file name on the ignore list is never part of a diff plan's
result and its path is never deleted by `resetPatch`, whatever its state
on disk. -/
theorem C6_ignore_respected (fs : FS) (files : List PatchFile)
    (D : String) (I : List String) (n : String) (hn : n ∈ I) :
    (∀ L T, getFilesToPatch fs files D I = .ok (L, T) → n ∉ L) ∧
    (∀ rmOk, localizePath (joinPath D n) ∉
      (resetPatch rmOk fs D files I).2.2) := by
  constructor
  · intro L T h hmem
    exact getFilesToPatch_not_ignored fs files D I L T h n hmem hn
  · intro rmOk hmem
    cases hdiff : getFilesToPatch fs files D I with
    | error e =>
      simp only [resetPatch, hdiff] at hmem
      simp at hmem
    | ok q =>
      obtain ⟨m, t⟩ := q
      by_cases hlen : m.length = files.length
      · simp only [resetPatch, hdiff, hlen, ne_eq, not_true_eq_false,
          if_false] at hmem
        simp at hmem
      · simp only [resetPatch, hdiff, ne_eq, hlen, not_false_eq_true,
          if_true] at hmem
        obtain ⟨f, _, heq, hfI, _, _⟩ :=
          resetRemoveLoop_trace rmOk D I fs files _ hmem
        have hnf : n = f.Name := joinPath_inj (by simpa [localizePath] using heq)
        exact hfI (hnf ▸ hn)

/-- Witness for C6 at a concrete manifest and ignore list: the stale but
ignored file `b` is neither planned nor deleted. -/
theorem C6_ignore_respected_witness :
    (∀ L T, getFilesToPatch fsW filesW "D" ["b"] = .ok (L, T) → "b" ∉ L) ∧
    (∀ rmOk, localizePath (joinPath "D" "b") ∉
      (resetPatch rmOk fsW "D" filesW ["b"]).2.2) :=
  C6_ignore_respected fsW filesW "D" ["b"] "b" (by decide)

theorem validateGame_ok_true_iff (fs : FS) (v113 : String → Except Err Bool)
    (slashM maphackM hdM : Manifest) (g : Game) :
    validateGame fs v113 slashM maphackM hdM g = .ok true ↔
      GamePasses fs v113 slashM maphackM hdM g := by
  unfold validateGame GamePasses
  cases hv : v113 g.Location with
  | error e => simp
  | ok valid =>
    cases valid with
    | false => simp
    | true =>
      cases hs : getFilesToPatch fs slashM.Files g.Location [] with
      | error e => simp
      | ok p =>
        obtain ⟨slashFiles, st⟩ := p
        by_cases hsf : slashFiles.length > 0
        · have hne : slashFiles ≠ [] := by
            intro hnil; rw [hnil] at hsf; simp at hsf
          simp [hsf, hne]
        · have hnil : slashFiles = [] := List.length_eq_zero.mp (by omega)
          subst hnil
          cases hm : getFilesToPatch fs maphackM.Files g.Location
              (if g.OverrideBHCfg then ["BH.cfg"] else []) with
          | error e => simp
          | ok q =>
            obtain ⟨mf, mt⟩ := q
            cases hmap : g.Maphack with
            | true =>
              by_cases hmf : mf.length > 0
              · have hne : mf ≠ [] := by
                  intro hnil; rw [hnil] at hmf; simp at hmf
                simp [hmf, hne]
              · have hnil : mf = [] := List.length_eq_zero.mp (by omega)
                subst hnil
                cases hh : getFilesToPatch fs hdM.Files g.Location [] with
                | error e => simp
                | ok r =>
                  obtain ⟨hf, ht⟩ := r
                  cases hhd : g.HD with
                  | true =>
                    by_cases hhf : hf.length > 0
                    · have hne : hf ≠ [] := by
                        intro hnil; rw [hnil] at hhf; simp at hhf
                      simp [hhf, hne]
                    · have hnil : hf = [] := List.length_eq_zero.mp (by omega)
                      subst hnil
                      simp
                  | false =>
                    cases hins : isHDInstalled fs g.Location with
                    | error e => simp
                    | ok installed =>
                      cases installed with
                      | true => simp
                      | false => simp
            | false =>
              cases hins : isMaphackInstalled fs g.Location with
              | error e => simp
              | ok installed =>
                cases installed with
                | true => simp
                | false =>
                  cases hh : getFilesToPatch fs hdM.Files g.Location [] with
                  | error e => simp
                  | ok r =>
                    obtain ⟨hf, ht⟩ := r
                    cases hhd : g.HD with
                    | true =>
                      by_cases hhf : hf.length > 0
                      · have hne : hf ≠ [] := by
                          intro hnil; rw [hnil] at hhf; simp at hhf
                        simp [hhf, hne]
                      · have hnil : hf = [] := List.length_eq_zero.mp (by omega)
                        subst hnil
                        simp
                    | false =>
                      cases hins2 : isHDInstalled fs g.Location with
                      | error e => simp
                      | ok installed2 =>
                        cases installed2 with
                        | true => simp
                        | false => simp

theorem validateLoop_ok_true_iff (fs : FS) (v113 : String → Except Err Bool)
    (slashM maphackM hdM : Manifest) (games : List Game) :
    validateLoop fs v113 slashM maphackM hdM games = .ok true ↔
      ∀ g ∈ games, GamePasses fs v113 slashM maphackM hdM g := by
  induction games with
  | nil => simp [validateLoop]
  | cons g rest ih =>
    cases hg : validateGame fs v113 slashM maphackM hdM g with
    | error e =>
      simp only [validateLoop, hg]
      constructor
      · intro h; exact absurd h (by simp)
      · intro h
        have hok := (validateGame_ok_true_iff fs v113 slashM maphackM hdM g).mpr
          (h g (List.mem_cons_self _ _))
        rw [hg] at hok; exact absurd hok (by simp)
    | ok b =>
      cases b with
      | false =>
        simp only [validateLoop, hg]
        constructor
        · intro h; exact absurd h (by simp)
        · intro h
          have hok := (validateGame_ok_true_iff fs v113 slashM maphackM hdM g).mpr
            (h g (List.mem_cons_self _ _))
          rw [hg] at hok; exact absurd hok (by simp)
      | true =>
        simp only [validateLoop, hg]
        rw [ih]
        constructor
        · intro h g' hg'
          rcases List.mem_cons.mp hg' with rfl | hmem
          · exact (validateGame_ok_true_iff fs v113 slashM maphackM hdM g').mp hg
          · exact h g' hmem
        · intro h g' hmem
          exact h g' (List.mem_cons_of_mem _ hmem)

/-- C7: `ValidateGameVersions` returns up-to-date exactly when every
configured install is base-version-correct and every layer matches its
manifest according to its enabled/disabled state (honoring the BH.cfg
override ignore), and its only observable effects are the three manifest
fetches — no patch-file download, no filesystem mutation. -/
theorem C7_validate_read_only (env : ValidateEnv) (games : List Game)
    (slashM maphackM hdM : Manifest)
    (hc : env.configRead = .ok games)
    (h1 : env.fetchManifest "current/manifest.json" = .ok slashM)
    (h2 : env.fetchManifest "maphack/manifest.json" = .ok maphackM)
    (h3 : env.fetchManifest "hd/manifest.json" = .ok hdM) :
    ((ValidateGameVersions env).1 = .ok true ↔
      ∀ g ∈ games,
        GamePasses env.fs env.validate113cVersion slashM maphackM hdM g) ∧
    (∀ ev ∈ (ValidateGameVersions env).2,
      ev = Ev.fetch "current/manifest.json" ∨
      ev = Ev.fetch "maphack/manifest.json" ∨
      ev = Ev.fetch "hd/manifest.json") := by
  constructor
  · simp only [ValidateGameVersions, hc, h1, h2, h3]
    exact validateLoop_ok_true_iff env.fs env.validate113cVersion slashM
      maphackM hdM games
  · simp only [ValidateGameVersions, hc, h1, h2, h3]
    intro ev hev
    simpa using hev

/-- Witness for C7 at the concrete environment `envV`. -/
theorem C7_validate_read_only_witness :
    ((ValidateGameVersions envV).1 = .ok true ↔
      ∀ g ∈ [gW],
        GamePasses envV.fs envV.validate113cVersion slashMW mhMW hdMW g) ∧
    (∀ ev ∈ (ValidateGameVersions envV).2,
      ev = Ev.fetch "current/manifest.json" ∨
      ev = Ev.fetch "maphack/manifest.json" ∨
      ev = Ev.fetch "hd/manifest.json") :=
  C7_validate_read_only envV [gW] slashMW mhMW hdMW rfl rfl rfl rfl

/-- C8 counterexample: with desired count 0 and one tracked instance of
the same install, the claimed number of new processes (desired minus
tracked) is -1, but `Exec` starts 0 processes — the claim's "starts
exactly that many" fails when the difference is negative. -/
theorem C8_counterexample :
    startedCount (Exec envNeg [⟨1, "X"⟩]).2.2 "X" = 0 ∧
    gNeg.Instances - ((([⟨1, "X"⟩] : List game).filter
      (fun r => r.GameID == gNeg.ID)).length : Int) = -1 ∧
    (0 : Int) ≠ -1 := by decide

theorem launchLoop_all_ok (launch : Nat → Except Err Int) (g : Game)
    (hl : ∀ k, ∃ pid, launch k = .ok pid) :
    ∀ n k running, (launchLoop launch g n k running).1 = .ok () ∧
      ∀ id, startedCount (launchLoop launch g n k running).2.2.2 id =
        if g.ID = id then n else 0 := by
  intro n
  induction n with
  | zero =>
    intro k running
    exact ⟨rfl, fun id => by simp [launchLoop, startedCount]⟩
  | succ n ih =>
    intro k running
    obtain ⟨pid, hpid⟩ := hl k
    cases hrec : launchLoop launch g n (k + 1) (running ++ [⟨pid, g.ID⟩]) with
    | mk r q =>
      obtain ⟨running', k', evs⟩ := q
      have ihk := ih (k + 1) (running ++ [⟨pid, g.ID⟩])
      rw [hrec] at ihk
      constructor
      · simp only [launchLoop, hpid, hrec]
        exact ihk.1
      · intro id
        have hcnt := ihk.2 id
        simp only [startedCount] at hcnt ⊢
        simp only [launchLoop, hpid, hrec]
        by_cases hid : g.ID = id
        · subst hid
          simp [List.count_cons, hcnt]
        · simp [List.count_cons, hcnt, hid]

theorem execGames_all_ok (launch : Nat → Except Err Int)
    (hl : ∀ k, ∃ pid, launch k = .ok pid) :
    ∀ games k running, (execGames launch games k running).1 = .ok () ∧
      ∀ id, startedCount (execGames launch games k running).2.2.2 id =
        (games.map (fun gi =>
          if gi.ID = id then gi.Instances.toNat else 0)).sum := by
  intro games
  induction games with
  | nil =>
    intro k running
    exact ⟨rfl, fun id => by simp [execGames, startedCount]⟩
  | cons g rest ih =>
    intro k running
    have hloop := launchLoop_all_ok launch g hl g.Instances.toNat k running
    cases hrec : launchLoop launch g g.Instances.toNat k running with
    | mk r q =>
      obtain ⟨running', k', evs⟩ := q
      rw [hrec] at hloop
      obtain ⟨hr, hcount⟩ := hloop
      simp only at hr
      subst hr
      have ihk := ih k' running'
      cases hrec2 : execGames launch rest k' running' with
      | mk r2 q2 =>
        obtain ⟨running'', k'', evs2⟩ := q2
        rw [hrec2] at ihk
        constructor
        · simp only [execGames, hrec, hrec2]
          exact ihk.1
        · intro id
          have h1 := hcount id
          have h2 := ihk.2 id
          simp only [startedCount] at h1 h2 ⊢
          simp only [execGames, hrec, hrec2, List.count_append, h1, h2,
            List.map_cons, List.sum_cons]

theorem sumStarted_nodup (games : List Game)
    (hnd : (games.map Game.ID).Nodup) (g : Game) (hg : g ∈ games) :
    ((games.map (fun gi =>
      if gi.ID = g.ID then gi.Instances.toNat else 0)).sum) =
      g.Instances.toNat := by
  induction games with
  | nil => simp at hg
  | cons h rest ih =>
    simp only [List.map_cons, List.nodup_cons] at hnd
    rcases List.mem_cons.mp hg with rfl | hmem
    · have hrest : ∀ x ∈ rest.map (fun gi =>
          if gi.ID = g.ID then gi.Instances.toNat else 0), x = 0 := by
        intro x hx
        obtain ⟨gi, hgi, rfl⟩ := List.mem_map.mp hx
        have : ¬(gi.ID = g.ID) := fun heq =>
          hnd.1 (heq ▸ List.mem_map_of_mem Game.ID hgi)
        simp [this]
      simp [List.sum_eq_zero hrest]
    · have hne : ¬(h.ID = g.ID) := fun heq =>
        hnd.1 (heq ▸ List.mem_map_of_mem Game.ID hmem)
      simp [hne, ih hnd.2 hmem]

/-- C8 amended: with every launch succeeding and pairwise-distinct
install ids, `Exec` starts, for each configured install, exactly
`max 0 (desired - tracked)` new processes, where `tracked` is the number
of tracked running instances carrying that install's id (`Int.toNat`
clamps the negative case the counterexample exhibits). -/
theorem C8_instance_accounting (env : ExecEnv) (games : List Game)
    (running : List game)
    (hc : env.configRead = .ok games)
    (hl : ∀ k, ∃ pid, env.launch k = .ok pid)
    (hnd : (games.map Game.ID).Nodup) :
    ∀ g ∈ games,
      startedCount (Exec env running).2.2 g.ID =
        (g.Instances -
          ((running.filter (fun r => r.GameID == g.ID)).length : Int)).toNat := by
  intro g hg
  have hexec := execGames_all_ok env.launch hl
    (mutateInstancesToLaunch games running) 0 running
  cases hrec : execGames env.launch (mutateInstancesToLaunch games running)
      0 running with
  | mk r q =>
    obtain ⟨running', k', evs⟩ := q
    rw [hrec] at hexec
    have hcnt := hexec.2 g.ID
    simp only [startedCount] at hcnt
    have hndm : ((mutateInstancesToLaunch games running).map Game.ID).Nodup := by
      have : (mutateInstancesToLaunch games running).map Game.ID =
          games.map Game.ID := by
        simp [mutateInstancesToLaunch, List.map_map]
      rw [this]; exact hnd
    have hgm : ({ g with Instances := g.Instances -
        ((running.filter (fun r => r.GameID == g.ID)).length : Int) } : Game) ∈
        mutateInstancesToLaunch games running :=
      List.mem_map_of_mem _ hg
    have hsum := sumStarted_nodup (mutateInstancesToLaunch games running)
      hndm _ hgm
    simp only [Exec, hc, hrec, startedCount, List.count_append]
    have hzero : ((games.map (fun _ => Ev.readRunning)).count
        (Ev.launchStart g.ID)) = 0 := by
      rw [List.count_eq_zero]
      intro hmem
      obtain ⟨x, _, hx⟩ := List.mem_map.mp hmem
      exact Ev.noConfusion hx
    rw [hzero, hcnt]
    simpa using hsum

/-- Witness for C8's amended claim: 2 tracked instances, desired count 3,
exactly 1 process started. -/
theorem C8_instance_accounting_witness :
    startedCount (Exec env8 running8).2.2 g8.ID =
      (g8.Instances -
        ((running8.filter (fun r => r.GameID == g8.ID)).length : Int)).toNat ∧
    (g8.Instances -
      ((running8.filter (fun r => r.GameID == g8.ID)).length : Int)).toNat = 1 :=
  ⟨C8_instance_accounting env8 [g8] running8 rfl
      (fun k => ⟨200 + (k : Int), rfl⟩) (by decide) g8 (by decide),
   by decide⟩

theorem listenRemoveAux_events (pid : Option Int) :
    ∀ remaining arr len i,
      ∀ ev ∈ (listenRemoveAux pid remaining arr len i).2,
        ev = Ev.readRunning ∨ ev = Ev.writeRunning := by
  intro remaining
  induction remaining with
  | zero => intro arr len i; simp [listenRemoveAux]
  | succ remaining ih =>
    intro arr len i
    cases hget : arr[i]? with
    | none => simp [listenRemoveAux, hget]
    | some g =>
      by_cases hm : pidMatches pid g
      · by_cases hle : i + 1 ≤ len
        · cases hrec : listenRemoveAux pid remaining (goShiftRemove arr len i)
              (len - 1) (i + 1) with
          | mk r evs =>
            have hrecm := ih (goShiftRemove arr len i) (len - 1) (i + 1)
            rw [hrec] at hrecm
            simp only [listenRemoveAux, hget, hm, hle, if_pos, if_true, hrec]
            intro ev hev
            rcases List.mem_cons.mp hev with rfl | hev'
            · exact Or.inl rfl
            · rcases List.mem_cons.mp hev' with rfl | hev''
              · exact Or.inr rfl
              · exact hrecm ev hev''
        · simp [listenRemoveAux, hget, hm, hle]
      · cases hrec : listenRemoveAux pid remaining arr len (i + 1) with
        | mk r evs =>
          have hrecm := ih arr len (i + 1)
          rw [hrec] at hrecm
          simp only [listenRemoveAux, hget, hm, Bool.false_eq_true, if_false,
            hrec]
          intro ev hev
          rcases List.mem_cons.mp hev with rfl | hev'
          · exact Or.inl rfl
          · exact hrecm ev hev'

theorem accessesLockedFrom_rw_append (d : Nat) (hd : 0 < d) :
    ∀ evs rest, (∀ ev ∈ evs, ev = Ev.readRunning ∨ ev = Ev.writeRunning) →
      accessesLockedFrom d (evs ++ rest) = accessesLockedFrom d rest := by
  intro evs
  induction evs with
  | nil => intro rest _; rfl
  | cons ev tail ih =>
    intro rest h
    rcases h ev (List.mem_cons_self _ _) with rfl | rfl
    · simp only [List.cons_append, accessesLockedFrom, decide_eq_true hd,
        Bool.true_and]
      exact ih rest (fun e he => h e (List.mem_cons_of_mem _ he))
    · simp only [List.cons_append, accessesLockedFrom, decide_eq_true hd,
        Bool.true_and]
      exact ih rest (fun e he => h e (List.mem_cons_of_mem _ he))

theorem processGameState_locked (st : execState) (running : List game) :
    accessesLocked (processGameState st running).2 = true := by
  have hevs := listenRemoveAux_events st.pid running.length running
    running.length 0
  cases hrec : listenRemoveAux st.pid running.length running
      running.length 0 with
  | mk r evs =>
    rw [hrec] at hevs
    simp only at hevs
    have key : ∀ rest, accessesLockedFrom 1 (evs ++ rest) =
        accessesLockedFrom 1 rest :=
      fun rest => accessesLockedFrom_rw_append 1 (by omega) evs rest hevs
    have hnil : accessesLockedFrom 1 evs = true := by
      have h0 := key []
      rw [List.append_nil] at h0
      rw [h0]; rfl
    have hone : accessesLockedFrom 1 (evs ++ [Ev.unlock]) = true := by
      rw [key [Ev.unlock]]; rfl
    cases r with
    | error p =>
      cases herr : st.err with
      | none =>
        simp only [processGameState, herr, hrec, accessesLocked,
          List.nil_append, List.singleton_append, accessesLockedFrom]
        exact hnil
      | some msg =>
        simp only [processGameState, herr, hrec, accessesLocked,
          List.singleton_append, List.cons_append, List.nil_append,
          accessesLockedFrom]
        exact hnil
    | ok q =>
      obtain ⟨arr, len⟩ := q
      cases herr : st.err with
      | none =>
        simp only [processGameState, herr, hrec, accessesLocked,
          List.nil_append, List.singleton_append, List.append_assoc,
          List.cons_append, accessesLockedFrom]
        simpa using hone
      | some msg =>
        simp only [processGameState, herr, hrec, accessesLocked,
          List.singleton_append, List.cons_append, List.nil_append,
          List.append_assoc, accessesLockedFrom]
        simpa using hone

/-- C9: the claim requires every access to the shared `runningGames`
collection to hold the single exclusive lock. The background
exit-notification consumer does lock around all its accesses, but the
launch path (`Exec`, including `mutateInstancesToLaunch`) scans and
appends `runningGames` without ever taking the lock: its trace contains
accesses at lock depth zero. -/
theorem C9_running_games_lock_bug :
    (Ev.writeRunning ∈ (Exec envC9 []).2.2 ∧
      accessesLocked (Exec envC9 []).2.2 = false) ∧
    ∀ st running, accessesLocked (processGameState st running).2 = true :=
  ⟨by decide, processGameState_locked⟩

/-- C10 counterexample: a notification whose pid matches two tracked
entries. The claim says exactly the matching entries are removed (the
result here would be the empty list); the in-place removal loop instead
re-reads the stale backing array and panics slicing past the shrunken
length, removing nothing visible. -/
theorem C10_counterexample :
    (processGameState ⟨some 5, none⟩ [⟨5, "X"⟩, ⟨5, "X"⟩]).1 =
      .error .sliceOutOfRange ∧
    (processGameState ⟨some 5, none⟩ [⟨5, "X"⟩, ⟨5, "X"⟩]).1 ≠
      .ok ([] : List game) := by decide

theorem listenRemoveAux_all_no_match (pid : Option Int) :
    ∀ remaining arr len i, (∀ g ∈ arr, pidMatches pid g = false) →
      (listenRemoveAux pid remaining arr len i).1 = .ok (arr, len) := by
  intro remaining
  induction remaining with
  | zero => intro arr len i _; rfl
  | succ r ih =>
    intro arr len i h
    cases hget : arr[i]? with
    | none => simp [listenRemoveAux, hget]
    | some g =>
      have hnm := h g (List.getElem?_mem hget)
      cases hrec : listenRemoveAux pid r arr len (i + 1) with
      | mk rr evs =>
        have hr := ih arr len (i + 1) h
        rw [hrec] at hr
        simp only at hr
        simp only [listenRemoveAux, hget, hnm, Bool.false_eq_true, if_false,
          hrec]
        exact hr

theorem listenRemoveAux_skip (pid : Option Int) :
    ∀ d remaining arr len i,
      (∀ j g, j < i + d → arr[j]? = some g → pidMatches pid g = false) →
      (listenRemoveAux pid (d + remaining) arr len i).1 =
        (listenRemoveAux pid remaining arr len (i + d)).1 := by
  intro d
  induction d with
  | zero => intro remaining arr len i _; simp
  | succ d ih =>
    intro remaining arr len i h
    rw [Nat.succ_add]
    cases hget : arr[i]? with
    | none =>
      have hle : arr.length ≤ i := List.getElem?_eq_none_iff.mp hget
      have hnone : arr[i + (d + 1)]? = none := List.getElem?_eq_none (by omega)
      cases remaining with
      | zero => simp [listenRemoveAux, hget]
      | succ r => simp [listenRemoveAux, hget, hnone]
    | some g =>
      have hnm := h i g (by omega) hget
      have hih := ih remaining arr len (i + 1)
        (fun j g' hj hg' => h j g' (by omega) hg')
      cases hrec : listenRemoveAux pid (d + remaining) arr len (i + 1) with
      | mk rr evs =>
        rw [hrec] at hih
        simp only at hih
        simp only [listenRemoveAux, hget, hnm, Bool.false_eq_true, if_false,
          hrec]
        rw [show i + (d + 1) = i + 1 + d from by omega]
        exact hih

theorem drop_after_match (l₁ l₂ : List game) (m : game) :
    (l₁ ++ m :: l₂).drop (l₁.length + 1) = l₂ := by
  rw [← List.drop_drop, List.drop_left]
  rfl

theorem goShiftRemove_decomp (l₁ l₂ : List game) (m : game) :
    goShiftRemove (l₁ ++ m :: l₂) (l₁.length + (l₂.length + 1)) l₁.length =
      (l₁ ++ l₂) ++ (l₁ ++ m :: l₂).drop (l₁.length + l₂.length) := by
  have hlen : l₁.length + (l₂.length + 1) - (l₁.length + 1) = l₂.length := by
    omega
  have hlast : l₁.length + (l₂.length + 1) - 1 = l₁.length + l₂.length := by
    omega
  unfold goShiftRemove
  rw [List.take_left, drop_after_match, hlen, List.take_length, hlast,
    List.append_assoc]

theorem listenRemoveAux_single_match (pid : Option Int) (l₁ l₂ : List game)
    (m : game) (hm : pidMatches pid m = true)
    (h₁ : ∀ g ∈ l₁, pidMatches pid g = false)
    (h₂ : ∀ g ∈ l₂, pidMatches pid g = false) :
    (listenRemoveAux pid (l₁.length + (l₂.length + 1)) (l₁ ++ m :: l₂)
      (l₁.length + (l₂.length + 1)) 0).1 =
      .ok ((l₁ ++ l₂) ++ (l₁ ++ m :: l₂).drop (l₁.length + l₂.length),
        l₁.length + l₂.length) := by
  have hpre : ∀ j g, j < 0 + l₁.length → (l₁ ++ m :: l₂)[j]? = some g →
      pidMatches pid g = false := by
    intro j g hj hg
    rw [List.getElem?_append] at hg
    rw [if_pos (by omega)] at hg
    exact h₁ g (List.getElem?_mem hg)
  have hskip := listenRemoveAux_skip pid l₁.length (l₂.length + 1)
    (l₁ ++ m :: l₂) (l₁.length + (l₂.length + 1)) 0 hpre
  rw [Nat.zero_add] at hskip
  rw [hskip]
  have hgetm : (l₁ ++ m :: l₂)[l₁.length]? = some m := by
    rw [List.getElem?_append_right (le_refl _)]
    simp
  have hle : l₁.length + 1 ≤ l₁.length + (l₂.length + 1) := by omega
  simp only [listenRemoveAux, hgetm, hm, if_true, if_pos hle]
  have hlast : l₁.length + (l₂.length + 1) - 1 = l₁.length + l₂.length := by
    omega
  rw [hlast, goShiftRemove_decomp]
  by_cases hnil : l₂ = []
  · subst hnil
    rfl
  · have hpos : 0 < l₂.length := List.length_pos.mpr hnil
    have hsub : (l₁ ++ m :: l₂).drop (l₁.length + l₂.length) ⊆ l₂ := by
      intro y hy
      rw [show l₁.length + l₂.length = l₁.length + 1 + (l₂.length - 1) from by
        omega, ← List.drop_drop, drop_after_match] at hy
      exact List.drop_subset _ _ hy
    have hall : ∀ g ∈ (l₁ ++ l₂) ++
        (l₁ ++ m :: l₂).drop (l₁.length + l₂.length),
        pidMatches pid g = false := by
      intro g hg
      rcases List.mem_append.mp hg with hg' | hg'
      · rcases List.mem_append.mp hg' with hg'' | hg''
        · exact h₁ g hg''
        · exact h₂ g hg''
      · exact h₂ g (hsub hg')
    cases hrec : listenRemoveAux pid l₂.length
        ((l₁ ++ l₂) ++ (l₁ ++ m :: l₂).drop (l₁.length + l₂.length))
        (l₁.length + l₂.length) (l₁.length + 1) with
    | mk rr evs =>
      have hr := listenRemoveAux_all_no_match pid l₂.length
        ((l₁ ++ l₂) ++ (l₁ ++ m :: l₂).drop (l₁.length + l₂.length))
        (l₁.length + l₂.length) (l₁.length + 1) hall
      rw [hrec] at hr
      simp only at hr
      simp only [hrec]
      exact hr

/-- C10 amended: if the notification's pid is nil or matches no tracked
instance, the tracked list is unchanged; if it matches exactly one
tracked entry, exactly that entry is removed and the other entries keep
their order; and the notification's error is only logged — it neither
removes an instance by itself nor changes the resulting list. The
original claim's guarantee for a notification matching several tracked
entries is dropped: the counterexample exhibits a two-match state on
which the removal loop panics instead of removing both. -/
theorem C10_listener_removal (st : execState) (running : List game) :
    ((st.pid = none ∨ ∀ g ∈ running, pidMatches st.pid g = false) →
      (processGameState st running).1 = .ok running) ∧
    (∀ l₁ m l₂, running = l₁ ++ m :: l₂ → pidMatches st.pid m = true →
      (∀ g ∈ l₁, pidMatches st.pid g = false) →
      (∀ g ∈ l₂, pidMatches st.pid g = false) →
      (processGameState st running).1 = .ok (l₁ ++ l₂)) ∧
    (∀ msg, (processGameState ⟨st.pid, some msg⟩ running).1 =
        (processGameState ⟨st.pid, none⟩ running).1 ∧
      Ev.logged msg ∈ (processGameState ⟨st.pid, some msg⟩ running).2) := by
  refine ⟨?_, ?_, ?_⟩
  · intro hno
    have hall : ∀ g ∈ running, pidMatches st.pid g = false := by
      rcases hno with hpid | hall
      · intro g _; rw [hpid]; rfl
      · exact hall
    have hr := listenRemoveAux_all_no_match st.pid running.length running
      running.length 0 hall
    cases hrec : listenRemoveAux st.pid running.length running
        running.length 0 with
    | mk r evs =>
      rw [hrec] at hr
      simp only at hr
      subst hr
      simp [processGameState, hrec, List.take_length]
  · intro l₁ m l₂ hrun hm h₁ h₂
    subst hrun
    have hlen : (l₁ ++ m :: l₂).length = l₁.length + (l₂.length + 1) := by
      rw [List.length_append, List.length_cons]
    have hr := listenRemoveAux_single_match st.pid l₁ l₂ m hm h₁ h₂
    simp only [processGameState, hlen]
    cases hrec : listenRemoveAux st.pid (l₁.length + (l₂.length + 1))
        (l₁ ++ m :: l₂) (l₁.length + (l₂.length + 1)) 0 with
    | mk r evs =>
      rw [hrec] at hr
      simp only at hr
      subst hr
      simp
      rw [← List.append_assoc,
        show l₁.length + l₂.length = (l₁ ++ l₂).length from
          (List.length_append _ _).symm,
        List.take_left]
  · intro msg
    cases hrec : listenRemoveAux st.pid running.length running
        running.length 0 with
    | mk r evs =>
      cases r with
      | error p =>
        constructor
        · simp [processGameState, hrec]
        · simp [processGameState, hrec]
      | ok q =>
        obtain ⟨arr, len⟩ := q
        constructor
        · simp [processGameState, hrec]
        · simp [processGameState, hrec]

/-- Witness for C10's amended claim: pid 5 matches exactly the middle
entry, which is removed; the error is logged. -/
theorem C10_listener_removal_witness :
    (processGameState ⟨some 5, some "exit 1"⟩
      [⟨4, "A"⟩, ⟨5, "X"⟩, ⟨6, "B"⟩]).1 = .ok ([⟨4, "A"⟩] ++ [⟨6, "B"⟩]) ∧
    Ev.logged "exit 1" ∈ (processGameState ⟨some 5, some "exit 1"⟩
      [⟨4, "A"⟩, ⟨5, "X"⟩, ⟨6, "B"⟩]).2 :=
  ⟨(C10_listener_removal ⟨some 5, some "exit 1"⟩
      [⟨4, "A"⟩, ⟨5, "X"⟩, ⟨6, "B"⟩]).2.1 [⟨4, "A"⟩] ⟨5, "X"⟩ [⟨6, "B"⟩]
      rfl (by decide) (by decide) (by decide),
   ((C10_listener_removal ⟨some 5, none⟩
      [⟨4, "A"⟩, ⟨5, "X"⟩, ⟨6, "B"⟩]).2.2 "exit 1").2⟩

end SlashLauncher
